import Mathlib

set_option maxRecDepth 8192

/-!
Shallow embedding of `src/mntfs.c`, a synthetic read-only filesystem that
projects the caller's mount table as a flat directory of symlinks, one per
mount, named by the decimal mount id.

Modelling conventions:
* `struct vfsmount` is `VfsMount`: the fields the module reads are
  `mnt_id` (a C `int`, modelled as `Int`) and the absolute path `d_path`
  computes for `(mnt, mnt->mnt_root)` (modelled as `List Char`).
* The ambient `task_nsproxy(current)->mnt_ns` lookup is made an explicit
  `Option MntNamespace` argument (`none` models a missing nsproxy or a
  missing mount namespace, both of which the C code folds into `-ENOENT`).
* Reference-count and path operations (`mntget`, `mntput`, `path_put`,
  `path_get`) are recorded as an explicit event trace `List Ev` returned
  alongside each operation's result, so leak-freedom is a statement about
  the trace.
* Fallible C functions returning `ERR_PTR(-E...)` become `Except Errno`.
* `unsigned long` arithmetic in `strict_strtoul` wraps modulo `2 ^ 64`;
  the implicit `unsigned long -> int` conversion at the call
  `find_mount_by_id(id)` is `ulong_to_int`.
* Transient allocation outcomes (`kmalloc`, `iget_locked`, `d_alloc_root`)
  and `d_path` success are explicit boolean inputs.
-/

namespace Mntfs

/-- Errno values returned by the module (as `ERR_PTR(-E...)` or negative
returns in the C source). -/
inductive Errno where
  | ENOENT
  | ENAMETOOLONG
  | ENOMEM
  deriving DecidableEq, Repr

/-- The part of `struct vfsmount` the module reads: `mnt->mnt_id` (a C
`int`) and the absolute path that `d_path` yields for
`{ .mnt = mnt, .dentry = mnt->mnt_root }`. -/
structure VfsMount where
  mnt_id : Int
  mnt_root : List Char
  deriving DecidableEq, Repr

/-- The `ns->list` mount table of one mount namespace, in table order. -/
abbrev MntNamespace := List VfsMount

/-- Maximum path-component length (`NAME_MAX` in limits.h). -/
def NAME_MAX : Nat := 255

/-- Directory-entry type code `DT_LNK`. -/
def DT_LNK : Nat := 10

/-- Line 16: `mnt_inode(mnt) = mnt->mnt_id + 1000`, the externally exposed
inode number of the symlink node for one mount. -/
def mnt_inode (mnt : VfsMount) : Int :=
  mnt.mnt_id + 1000

/-- A traversal position: the `struct path` inside `struct nameidata`
(`nd->path.mnt` identified by its mount id, plus its dentry, described by
a path text). -/
structure PathPos where
  pos_mnt_id : Int
  pos_dentry : List Char
  deriving DecidableEq, Repr

/-- Reference-count and path-reference events the module performs, in
program order. -/
inductive Ev where
  | mntget (id : Int)
  | mntput (id : Int)
  | path_put (p : PathPos)
  | path_get (p : PathPos)
  deriving DecidableEq, Repr

/-- Numeric value of a decimal digit character (C: `c - '0'`). -/
def digitVal (c : Char) : Nat :=
  c.toNat - 48

/-- One `unsigned long` modulus: arithmetic in `simple_strtoul` wraps
modulo `2 ^ 64`. -/
def UL_MOD : Nat := 2 ^ 64

/-- The digit-consuming loop of `simple_strtoul` (base 10): consume the
maximal digit prefix, accumulating `acc * 10 + digit` with `unsigned
long` wraparound, and return the accumulator together with the unconsumed
tail. -/
def simple_strtoul_go : List Char → Nat → Nat × List Char
  | [], acc => (acc, [])
  | c :: rest, acc =>
    if c.isDigit then simple_strtoul_go rest ((acc * 10 + digitVal c) % UL_MOD)
    else (acc, c :: rest)

/-- `strict_strtoul(cp, 10, &res)` of the era: fail on an empty string,
parse with `simple_strtoul`, fail when no character was consumed, and
accept only when the tail is empty or is exactly one final newline. -/
def strict_strtoul (s : List Char) : Option Nat :=
  match s with
  | [] => none
  | _ :: _ =>
    if (simple_strtoul_go s 0).2 = s then none
    else if (simple_strtoul_go s 0).2 = [] then some (simple_strtoul_go s 0).1
    else if (simple_strtoul_go s 0).2 = ['\n'] then some (simple_strtoul_go s 0).1
    else none

/-- The implicit C conversion of the parsed `unsigned long` to the `int`
parameter of `find_mount_by_id` (reduce modulo `2 ^ 32` into
`[-2 ^ 31, 2 ^ 31)`). -/
def ulong_to_int (n : Nat) : Int :=
  if n % 2 ^ 32 < 2 ^ 31 then ((n % 2 ^ 32 : Nat) : Int)
  else ((n % 2 ^ 32 : Nat) : Int) - 2 ^ 32

/-- Lines 28-48: walk the namespace's mount list in order; on the first
record whose `mnt_id` matches, `mntget` it and return it; `-ENOENT` when
there is no nsproxy, no mount namespace, or no match. -/
def find_mount_by_id (ns : Option MntNamespace) (id : Int) :
    Except Errno VfsMount × List Ev :=
  match ns with
  | none => (Except.error Errno.ENOENT, [])
  | some table =>
    match table.find? (fun m => decide (m.mnt_id = id)) with
    | some mnt => (Except.ok mnt, [Ev.mntget mnt.mnt_id])
    | none => (Except.error Errno.ENOENT, [])

/-- Lines 50-68: reject names longer than `NAME_MAX` with
`-ENAMETOOLONG`; reject names starting with a literal 0 digit that are
longer than one character with `-ENOENT`; parse with `strict_strtoul`
(failure is `-ENOENT`); then search the table by the parsed id. -/
def find_mount_by_dentry (ns : Option MntNamespace) (name : List Char) :
    Except Errno VfsMount × List Ev :=
  if NAME_MAX < name.length then (Except.error Errno.ENAMETOOLONG, [])
  else if name.head? = some '0' ∧ 1 < name.length then (Except.error Errno.ENOENT, [])
  else
    match strict_strtoul name with
    | none => (Except.error Errno.ENOENT, [])
    | some v => find_mount_by_id ns (ulong_to_int v)

/-- Lines 70-84: `mntfs_lookup` finds the mount named by the dentry, on
success synthesizes (via `mntfs_iget`) and `d_add`s the inode numbered
`mnt_inode(mnt)`, then `mntput`s the mount.  The result carries the inode
number of the d_added inode. -/
def mntfs_lookup (ns : Option MntNamespace) (name : List Char) :
    Except Errno Int × List Ev :=
  match find_mount_by_dentry ns name with
  | (Except.error e, tr) => (Except.error e, tr)
  | (Except.ok mnt, tr) => (Except.ok (mnt_inode mnt), tr ++ [Ev.mntput mnt.mnt_id])

/-- One directory entry as handed to `filldir`: the name written by
`snprintf(name, 13, "%d", mnt->mnt_id)`, the `filp->f_pos` offset passed,
the inode number `mnt_inode(mnt)`, and the `DT_LNK` type code. -/
structure DirEntry where
  de_name : List Char
  de_pos : Nat
  de_ino : Int
  de_type : Nat
  deriving DecidableEq, Repr

/-- Big-endian decimal digits of `n`, driven by a structural fuel (any
fuel at least `n` yields the digits of `n`); `[]` for `n = 0`. -/
def decCharsAux : Nat → Nat → List Char
  | 0, _ => []
  | fuel + 1, n =>
    if n = 0 then []
    else decCharsAux fuel (n / 10) ++ [Char.ofNat (48 + n % 10)]

/-- Decimal text of a natural number (what `snprintf "%d"` or `"%lu"`
prints for a non-negative value). -/
def decChars (n : Nat) : List Char :=
  if n = 0 then ['0'] else decCharsAux n n

/-- Decimal text of a C `int` as printed by `snprintf(.., "%d", v)`:
a minus sign followed by the digits of the magnitude when negative.
The 13-byte buffer in `mntfs_readdir` never truncates a 32-bit value. -/
def intDecChars (v : Int) : List Char :=
  if v < 0 then '-' :: decChars v.natAbs else decChars v.toNat

/-- The directory entry `mntfs_readdir` emits for the record `e.2` found
at zero-based scan index `e.1`. -/
def mkEntry (e : Nat × VfsMount) : DirEntry :=
  ⟨intDecChars e.2.mnt_id, e.1, mnt_inode e.2, DT_LNK⟩

/-- Lines 104-112, the `list_for_each_entry` loop of `mntfs_readdir`:
`i` is the running scan index, `pos` is `filp->f_pos`.  When
`filp->f_pos <= i` the entry is passed to `filldir` (name, current
`f_pos`, `mnt_inode`, `DT_LNK`) and `f_pos` becomes `i + 1`.  Returns the
emitted entries and the final `f_pos`.  No reference is taken on any
record (the loop performs no `mntget`). -/
def mntfs_readdir_loop : List VfsMount → Nat → Nat → List DirEntry × Nat
  | [], _, pos => ([], pos)
  | mnt :: rest, i, pos =>
    if pos ≤ i then
      (⟨intDecChars mnt.mnt_id, pos, mnt_inode mnt, DT_LNK⟩ ::
          (mntfs_readdir_loop rest (i + 1) (i + 1)).1,
        (mntfs_readdir_loop rest (i + 1) (i + 1)).2)
    else
      mntfs_readdir_loop rest (i + 1) pos

/-- Lines 90-116: `mntfs_readdir` resolves the caller's namespace (no
namespace: emit nothing) and runs the scan loop from `filp->f_pos`.
Its event trace is empty: the C loop contains no `mntget`/`mntput`. -/
def mntfs_readdir (ns : Option MntNamespace) (pos : Nat) :
    (List DirEntry × Nat) × List Ev :=
  match ns with
  | none => (([], pos), [])
  | some table => (mntfs_readdir_loop table 0 pos, [])

/-- Transient-allocation and path-composition outcomes inside
`mntfs_readlink`: whether `kmalloc(PATH_MAX, GFP_KERNEL)` succeeds and
whether `d_path` succeeds. -/
structure AllocEnv where
  kmalloc_ok : Bool
  d_path_ok : Bool
  deriving DecidableEq, Repr

/-- Lines 124-154: `mntfs_readlink`.  `error` is initialized to
`-ENOENT`.  On `kmalloc` failure the code jumps to `out_mntput` and
returns `error` still holding `-ENOENT`; likewise on `d_path` failure via
`out_free`.  On success `vfs_readlink` copies at most `buflen` bytes of
the composed path into the caller's buffer.  Every branch after a
successful find releases the mount exactly once. -/
def mntfs_readlink (env : AllocEnv) (ns : Option MntNamespace)
    (name : List Char) (buflen : Nat) :
    Except Errno (List Char) × List Ev :=
  match find_mount_by_dentry ns name with
  | (Except.error e, tr) => (Except.error e, tr)
  | (Except.ok mnt, tr) =>
    if env.kmalloc_ok = false then
      (Except.error Errno.ENOENT, tr ++ [Ev.mntput mnt.mnt_id])
    else if env.d_path_ok = false then
      (Except.error Errno.ENOENT, tr ++ [Ev.mntput mnt.mnt_id])
    else
      (Except.ok (mnt.mnt_root.take buflen), tr ++ [Ev.mntput mnt.mnt_id])

/-- Lines 156-172: `mntfs_follow`.  It first `path_put`s the caller's
current traversal position, then resolves the dentry to a mount; on
success it overwrites `nd->path` with `{ mnt, mnt->mnt_root }`,
`path_get`s the new position, and finally `mntput`s the mount. -/
def mntfs_follow (ns : Option MntNamespace) (name : List Char)
    (nd : PathPos) : Except Errno PathPos × List Ev :=
  match find_mount_by_dentry ns name with
  | (Except.error e, tr) => (Except.error e, Ev.path_put nd :: tr)
  | (Except.ok mnt, tr) =>
    (Except.ok ⟨mnt.mnt_id, mnt.mnt_root⟩,
      Ev.path_put nd :: (tr ++
        [Ev.path_get ⟨mnt.mnt_id, mnt.mnt_root⟩, Ev.mntput mnt.mnt_id]))

/-- A dentry as seen by the delete predicate (its name is irrelevant:
the predicate ignores its argument). -/
structure Dentry where
  d_name : List Char
  deriving DecidableEq, Repr

/-- Lines 20-22: `mntfs_dentry_delete` returns 1 (delete, i.e. do not
cache) for every dentry. -/
def mntfs_dentry_delete (_d : Dentry) : Int :=
  1

/-- The `d_delete` slot of `struct dentry_operations`. -/
structure DentryOperations where
  d_delete : Dentry → Int
  deriving Inhabited

/-- Lines 24-26: `mntfs_dentry_operations` installs
`mntfs_dentry_delete` as the `d_delete` predicate. -/
def mntfs_dentry_operations : DentryOperations :=
  ⟨mntfs_dentry_delete⟩

/-- Node kinds synthesized by `mntfs_iget`: the root directory (inode 1)
or a mount symlink. -/
inductive NodeKind where
  | dir
  | link
  deriving DecidableEq, Repr

/-- Lines 179-202: `mntfs_iget` synthesizes the inode numbered `ino`:
`-ENOMEM` when `iget_locked` fails to allocate; the root directory node
for `ino = 1`; a symlink node otherwise. -/
def mntfs_iget (alloc_ok : Bool) (ino : Int) : Except Errno (Int × NodeKind) :=
  if alloc_ok = false then Except.error Errno.ENOMEM
  else if ino = 1 then Except.ok (ino, NodeKind.dir)
  else Except.ok (ino, NodeKind.link)

/-- The superblock state `mntfs_fill_super` produces: the root inode
number and the installed `s_d_op` dentry-operations table. -/
structure SuperBlock where
  s_root_ino : Int
  s_d_op : DentryOperations

/-- Lines 208-223: `mntfs_fill_super` synthesizes the root inode (number
1), allocates the root dentry (`-ENOMEM` on failure) and installs
`mntfs_dentry_operations` as the filesystem-wide `sb->s_d_op`. -/
def mntfs_fill_super (iget_ok : Bool) (dalloc_ok : Bool) :
    Except Errno SuperBlock :=
  match mntfs_iget iget_ok 1 with
  | Except.error e => Except.error e
  | Except.ok root =>
    if dalloc_ok = false then Except.error Errno.ENOMEM
    else Except.ok ⟨root.1, mntfs_dentry_operations⟩

/-- Number of `mntget id` events in a trace. -/
def mntgetCount (tr : List Ev) (id : Int) : Nat :=
  (tr.filter (fun e => decide (e = Ev.mntget id))).length

/-- Number of `mntput id` events in a trace. -/
def mntputCount (tr : List Ev) (id : Int) : Nat :=
  (tr.filter (fun e => decide (e = Ev.mntput id))).length

/-- A trace is balanced when every mount sees as many releases as
acquisitions. -/
def mntBalanced (tr : List Ev) : Prop :=
  ∀ id : Int, mntgetCount tr id = mntputCount tr id

/-- Plain base-10 accumulation over a digit string (no wraparound). -/
def foldPlain (a : Nat) (s : List Char) : Nat :=
  s.foldl (fun x c => x * 10 + digitVal c) a

/-- Wrapping base-10 accumulation, as `simple_strtoul` performs it. -/
def foldMod (a : Nat) (s : List Char) : Nat :=
  s.foldl (fun x c => (x * 10 + digitVal c) % UL_MOD) a

lemma digitVal_ofNat (d : Nat) (h : d < 10) :
    digitVal (Char.ofNat (48 + d)) = d := by
  interval_cases d <;> decide

lemma isDigit_ofNat (d : Nat) (h : d < 10) :
    (Char.ofNat (48 + d)).isDigit = true := by
  interval_cases d <;> decide

lemma ofNat_ne_zero_char (d : Nat) (h0 : 0 < d) (h : d < 10) :
    Char.ofNat (48 + d) ≠ '0' := by
  interval_cases d <;> decide

lemma decCharsAux_zero (fuel : Nat) : decCharsAux fuel 0 = [] := by
  cases fuel <;> simp [decCharsAux]

lemma decCharsAux_ne_nil (fuel n : Nat) (h0 : n ≠ 0) (hf : n ≤ fuel) :
    decCharsAux fuel n ≠ [] := by
  cases fuel with
  | zero => omega
  | succ f => simp [decCharsAux, h0]

lemma foldPlain_decCharsAux :
    ∀ fuel n a, n ≤ fuel →
      foldPlain a (decCharsAux fuel n) =
        a * 10 ^ (decCharsAux fuel n).length + n := by
  intro fuel
  induction fuel with
  | zero =>
    intro n a h
    have hn : n = 0 := by omega
    subst hn
    simp [decCharsAux, foldPlain]
  | succ f ih =>
    intro n a h
    by_cases h0 : n = 0
    · subst h0; simp [decCharsAux, foldPlain]
    · have hrec : n / 10 ≤ f := by omega
      have hstep := ih (n / 10) a hrec
      simp only [decCharsAux, h0, if_false, List.length_append, List.length_cons,
        List.length_nil]
      unfold foldPlain at hstep ⊢
      rw [List.foldl_append, hstep]
      simp only [List.foldl_cons, List.foldl_nil]
      rw [digitVal_ofNat (n % 10) (by omega)]
      rw [pow_succ, ← mul_assoc]
      omega

lemma decCharsAux_all_digits :
    ∀ fuel n c, c ∈ decCharsAux fuel n → c.isDigit = true := by
  intro fuel
  induction fuel with
  | zero => intro n c hc; simp [decCharsAux] at hc
  | succ f ih =>
    intro n c hc
    by_cases h0 : n = 0
    · subst h0; simp [decCharsAux] at hc
    · simp only [decCharsAux, h0, if_false, List.mem_append, List.mem_singleton] at hc
      rcases hc with hc | hc
      · exact ih (n / 10) c hc
      · subst hc; exact isDigit_ofNat (n % 10) (by omega)

lemma decCharsAux_head_ne_zero :
    ∀ fuel n, n ≠ 0 → n ≤ fuel → (decCharsAux fuel n).head? ≠ some '0' := by
  intro fuel
  induction fuel with
  | zero => intro n h0 hf; omega
  | succ f ih =>
    intro n h0 hf
    simp only [decCharsAux, h0, if_false]
    by_cases h10 : n / 10 = 0
    · have hlt : n < 10 := by omega
      rw [h10, decCharsAux_zero]
      simp only [List.nil_append, List.head?_cons]
      have := ofNat_ne_zero_char (n % 10) (by omega) (by omega)
      intro hcontra
      exact this (Option.some.injEq _ _ ▸ hcontra)
    · have hne := decCharsAux_ne_nil f (n / 10) h10 (by omega)
      rcases List.exists_cons_of_ne_nil hne with ⟨b, L, hb⟩
      rw [hb]
      simp only [List.cons_append, List.head?_cons]
      have := ih (n / 10) h10 (by omega)
      rw [hb] at this
      simpa using this

lemma decCharsAux_length_le :
    ∀ fuel n k, n < 10 ^ k → (decCharsAux fuel n).length ≤ k := by
  intro fuel
  induction fuel with
  | zero => intro n k _; simp [decCharsAux]
  | succ f ih =>
    intro n k hk
    by_cases h0 : n = 0
    · subst h0; simp [decCharsAux]
    · cases k with
      | zero => simp at hk; omega
      | succ k =>
        simp only [decCharsAux, h0, if_false, List.length_append,
          List.length_cons, List.length_nil]
        have hdiv : n / 10 < 10 ^ k := by
          have : n < 10 ^ k * 10 := by rw [← pow_succ]; exact hk
          omega
        have := ih (n / 10) k hdiv
        omega

lemma simple_strtoul_go_all_digits :
    ∀ (s : List Char) (a : Nat), (∀ c ∈ s, c.isDigit = true) →
      simple_strtoul_go s a = (foldMod a s, []) := by
  intro s
  induction s with
  | nil => intro a _; simp [simple_strtoul_go, foldMod]
  | cons c t ih =>
    intro a hall
    have hc : c.isDigit = true := hall c (List.mem_cons_self c t)
    simp only [simple_strtoul_go, hc, if_true]
    rw [ih _ (fun x hx => hall x (List.mem_cons_of_mem c hx))]
    simp [foldMod]

lemma le_foldPlain : ∀ (s : List Char) (a : Nat), a ≤ foldPlain a s := by
  intro s
  induction s with
  | nil => intro a; simp [foldPlain]
  | cons c t ih =>
    intro a
    have h1 : a ≤ a * 10 + digitVal c := by omega
    have h2 := ih (a * 10 + digitVal c)
    calc a ≤ a * 10 + digitVal c := h1
    _ ≤ foldPlain (a * 10 + digitVal c) t := h2
    _ = foldPlain a (c :: t) := by simp [foldPlain]

lemma foldMod_eq_foldPlain :
    ∀ (s : List Char) (a : Nat), foldPlain a s < UL_MOD →
      foldMod a s = foldPlain a s := by
  intro s
  induction s with
  | nil => intro a _; simp [foldPlain, foldMod]
  | cons c t ih =>
    intro a h
    have hps : foldPlain a (c :: t) = foldPlain (a * 10 + digitVal c) t := by
      simp [foldPlain]
    rw [hps] at h
    have hb : a * 10 + digitVal c < UL_MOD :=
      lt_of_le_of_lt (le_foldPlain t (a * 10 + digitVal c)) h
    have hmod : (a * 10 + digitVal c) % UL_MOD = a * 10 + digitVal c :=
      Nat.mod_eq_of_lt hb
    have hms : foldMod a (c :: t) = foldMod ((a * 10 + digitVal c) % UL_MOD) t := by
      simp [foldMod]
    rw [hms, hmod, ih _ h, hps]

lemma foldPlain_decChars (n : Nat) :
    foldPlain 0 (decChars n) = n := by
  by_cases h0 : n = 0
  · subst h0; simp [decChars, foldPlain, digitVal]
  · simp only [decChars, h0, if_false]
    have := foldPlain_decCharsAux n n 0 (le_refl n)
    simpa using this

lemma decChars_ne_nil (n : Nat) : decChars n ≠ [] := by
  by_cases h0 : n = 0
  · subst h0; simp [decChars]
  · simp only [decChars, h0, if_false]
    exact decCharsAux_ne_nil n n h0 (le_refl n)

lemma decChars_all_digits (n : Nat) :
    ∀ c ∈ decChars n, c.isDigit = true := by
  by_cases h0 : n = 0
  · subst h0; intro c hc; simp [decChars] at hc; subst hc; decide
  · simp only [decChars, h0, if_false]
    exact fun c hc => decCharsAux_all_digits n n c hc

lemma strict_strtoul_decChars (n : Nat) (h : n < UL_MOD) :
    strict_strtoul (decChars n) = some n := by
  rcases List.exists_cons_of_ne_nil (decChars_ne_nil n) with ⟨b, L, hb⟩
  have hgo : simple_strtoul_go (decChars n) 0 = (foldMod 0 (decChars n), []) :=
    simple_strtoul_go_all_digits (decChars n) 0 (decChars_all_digits n)
  have hplain : foldPlain 0 (decChars n) = n := foldPlain_decChars n
  have hmod : foldMod 0 (decChars n) = n := by
    rw [foldMod_eq_foldPlain (decChars n) 0 (by rw [hplain]; exact h), hplain]
  rw [hb] at hgo hmod ⊢
  simp only [strict_strtoul, hgo, hmod]
  simp

lemma decChars_length_le_ten (n : Nat) (h : n < 2 ^ 31) :
    (decChars n).length ≤ 10 := by
  by_cases h0 : n = 0
  · subst h0; simp [decChars]
  · simp only [decChars, h0, if_false]
    exact decCharsAux_length_le n n 10 (by omega)

lemma decChars_no_zero_prefix (n : Nat) :
    ¬((decChars n).head? = some '0' ∧ 1 < (decChars n).length) := by
  by_cases h0 : n = 0
  · subst h0; simp [decChars]
  · simp only [decChars, h0, if_false]
    intro hcontra
    exact decCharsAux_head_ne_zero n n h0 (le_refl n) hcontra.1

lemma ulong_to_int_small (n : Nat) (h : n < 2 ^ 31) :
    ulong_to_int n = (n : Int) := by
  have hm : n % 2 ^ 32 = n := Nat.mod_eq_of_lt (by omega)
  simp only [ulong_to_int, hm, if_pos h]

/-- The full parse-side round trip: looking up the decimal text of a
valid mount id is exactly looking up that id in the table. -/
lemma find_by_dentry_decChars (ns : Option MntNamespace) (id : Nat)
    (h : id < 2 ^ 31) :
    find_mount_by_dentry ns (decChars id) = find_mount_by_id ns (id : Int) := by
  have hlen : ¬(NAME_MAX < (decChars id).length) := by
    have := decChars_length_le_ten id h
    simp only [NAME_MAX]; omega
  have hzp := decChars_no_zero_prefix id
  have hs : strict_strtoul (decChars id) = some id :=
    strict_strtoul_decChars id (by simp only [UL_MOD]; omega)
  simp only [find_mount_by_dentry, hlen, if_false, hzp, hs]
  rw [ulong_to_int_small id h]

/-- Every run of `find_mount_by_dentry` either fails having acquired
nothing, or succeeds having acquired exactly one reference on the mount
it returns. -/
lemma find_by_dentry_cases (ns : Option MntNamespace) (name : List Char) :
    (∃ e, find_mount_by_dentry ns name = (Except.error e, []))
    ∨ (∃ m, find_mount_by_dentry ns name = (Except.ok m, [Ev.mntget m.mnt_id])) := by
  unfold find_mount_by_dentry
  split_ifs with h1 h2
  · exact Or.inl ⟨_, rfl⟩
  · exact Or.inl ⟨_, rfl⟩
  · split
    · exact Or.inl ⟨_, rfl⟩
    · unfold find_mount_by_id
      split
      · exact Or.inl ⟨_, rfl⟩
      · split
        · exact Or.inr ⟨_, rfl⟩
        · exact Or.inl ⟨_, rfl⟩

/-- Success of `find_mount_by_id` on a table is exactly membership of a
record with the sought id. -/
lemma find_by_id_ok_iff (table : List VfsMount) (id : Int) :
    (∃ m, (find_mount_by_id (some table) id).1 = Except.ok m)
      ↔ ∃ m ∈ table, m.mnt_id = id := by
  constructor
  · rintro ⟨m, hm⟩
    simp only [find_mount_by_id] at hm
    split at hm
    · rename_i m2 hf
      refine ⟨m2, List.mem_of_find?_eq_some hf, ?_⟩
      have := List.find?_some hf
      simpa using this
    · simp at hm
  · rintro ⟨m, hmem, hid⟩
    have hne : table.find? (fun x => decide (x.mnt_id = id)) ≠ none := by
      rw [Ne, List.find?_eq_none]
      push_neg
      exact ⟨m, hmem, by simp [hid]⟩
    rcases ho : table.find? (fun x => decide (x.mnt_id = id)) with _ | m2
    · exact absurd ho hne
    · exact ⟨m2, by simp [find_mount_by_id, ho]⟩

/-- `mntfs_lookup` succeeds exactly when `find_mount_by_dentry` does. -/
lemma lookup_ok_iff (ns : Option MntNamespace) (name : List Char) :
    (∃ i, (mntfs_lookup ns name).1 = Except.ok i)
      ↔ ∃ m, (find_mount_by_dentry ns name).1 = Except.ok m := by
  rcases find_by_dentry_cases ns name with ⟨e, h⟩ | ⟨m, h⟩ <;>
    simp [mntfs_lookup, h]

/-- The filter of an enumeration whose indices all dominate the cursor
keeps everything. -/
lemma enumFrom_filter_all (l : List VfsMount) :
    ∀ (k q : Nat), q ≤ k →
      (List.enumFrom k l).filter (fun e => decide (q ≤ e.1)) = List.enumFrom k l := by
  induction l with
  | nil => intro k q _; simp
  | cons x xs ih =>
    intro k q hq
    simp only [List.enumFrom_cons, List.filter_cons, decide_eq_true_eq]
    rw [if_pos hq, ih (k + 1) q (by omega)]

/-- Specification of the `mntfs_readdir` scan loop: starting at scan
index `i` with cursor `pos ≥ i`, it emits exactly the records of index at
least `pos`, in order, each entry carrying its own zero-based index as
offset. -/
lemma readdir_loop_spec :
    ∀ (l : List VfsMount) (i pos : Nat), i ≤ pos →
      (mntfs_readdir_loop l i pos).1 =
        ((List.enumFrom i l).filter (fun e => decide (pos ≤ e.1))).map mkEntry := by
  intro l
  induction l with
  | nil => intro i pos _; simp [mntfs_readdir_loop]
  | cons mnt rest ih =>
    intro i pos hip
    by_cases hpi : pos ≤ i
    · have hpeq : pos = i := le_antisymm hpi hip
      subst hpeq
      simp only [mntfs_readdir_loop, if_pos (le_refl pos), List.enumFrom_cons,
        List.filter_cons, decide_eq_true_eq, if_pos (le_refl pos), List.map_cons]
      rw [ih (pos + 1) (pos + 1) (le_refl _)]
      rw [enumFrom_filter_all rest (pos + 1) (pos + 1) (le_refl _),
        enumFrom_filter_all rest (pos + 1) pos (by omega)]
      rfl
    · simp only [mntfs_readdir_loop, if_neg hpi, List.enumFrom_cons,
        List.filter_cons, decide_eq_true_eq, if_neg hpi]
      exact ih (i + 1) pos (by omega)

lemma mntBalanced_nil : mntBalanced [] := by
  intro id; rfl

lemma mntBalanced_get_put (m : Int) :
    mntBalanced [Ev.mntget m, Ev.mntput m] := by
  intro id
  by_cases h : m = id <;>
    simp [mntgetCount, mntputCount, List.filter, h]

lemma mntBalanced_path_put_only (p : PathPos) :
    mntBalanced [Ev.path_put p] := by
  intro id
  simp [mntgetCount, mntputCount, List.filter]

lemma mntBalanced_follow_trace (p q : PathPos) (m : Int) :
    mntBalanced [Ev.path_put p, Ev.mntget m, Ev.path_get q, Ev.mntput m] := by
  intro id
  by_cases h : m = id <;>
    simp [mntgetCount, mntputCount, List.filter, h]

/-- Claim C2: the node-identifier mapping is `mount_id + 1000` (the
code's ROOT_OFFSET), is injective over the whole mount-id space, never
yields the reserved root node identifier 1 for a valid (non-negative)
mount id, and looking up the decimal text of a valid id is exactly
looking up that id (the parse round-trips). -/
theorem mnt_inode_mapping :
    (∀ mnt : VfsMount, mnt_inode mnt = mnt.mnt_id + 1000)
    ∧ (∀ m1 m2 : VfsMount, mnt_inode m1 = mnt_inode m2 → m1.mnt_id = m2.mnt_id)
    ∧ (∀ mnt : VfsMount, 0 ≤ mnt.mnt_id → mnt_inode mnt ≠ 1)
    ∧ (∀ (ns : Option MntNamespace) (id : Nat), id < 2 ^ 31 →
        find_mount_by_dentry ns (decChars id) = find_mount_by_id ns (id : Int)) := by
  refine ⟨fun mnt => rfl, fun m1 m2 h => ?_, fun mnt h0 => ?_, find_by_dentry_decChars⟩
  · simpa [mnt_inode] using h
  · simp only [mnt_inode]
    omega

/-- Witness for C2 at concrete inputs: mount id 5 maps to node 1005,
two mounts with equal node ids share the mount id, id 0 avoids the root
identifier, and the decimal text of 42 looks up id 42. -/
theorem mnt_inode_mapping_witness :
    mnt_inode ⟨5, []⟩ = 5 + 1000
    ∧ (⟨3, ['a']⟩ : VfsMount).mnt_id = (⟨3, ['b']⟩ : VfsMount).mnt_id
    ∧ mnt_inode ⟨0, []⟩ ≠ 1
    ∧ find_mount_by_dentry (some [⟨42, []⟩]) (decChars 42)
        = find_mount_by_id (some [⟨42, []⟩]) 42 :=
  ⟨mnt_inode_mapping.1 ⟨5, []⟩,
   mnt_inode_mapping.2.1 ⟨3, ['a']⟩ ⟨3, ['b']⟩ (by decide),
   mnt_inode_mapping.2.2.1 ⟨0, []⟩ (by decide),
   mnt_inode_mapping.2.2.2 (some [⟨42, []⟩]) 42 (by norm_num)⟩

/-- Counterexample to claim C3 as stated: a 256-character name whose
first character is the digit 0 is rejected with ENAMETOOLONG, not the
claimed NotFound, whatever the table holds. -/
theorem zero_prefixed_overlong_name :
    (mntfs_lookup (some []) (List.replicate 256 '0')).1
      = Except.error Errno.ENAMETOOLONG
    ∧ (mntfs_lookup (some []) (List.replicate 256 '0')).1
      ≠ Except.error Errno.ENOENT := by
  constructor
  · rfl
  · intro h
    rw [show (mntfs_lookup (some []) (List.replicate 256 '0')).1
        = Except.error Errno.ENAMETOOLONG from rfl] at h
    exact absurd (Except.error.inj h) (by decide)

/-- Claim C3 (amended): the single-character name 0 parses to mount id 0
and lookup succeeds exactly when a mount with id 0 is in the scope; a
name of more than one character starting with the digit 0 and of length
at most NAME_MAX is reported NotFound regardless of the table (longer
names report NameTooLong instead). -/
theorem lookup_zero_names :
    (∀ ns : Option MntNamespace,
      find_mount_by_dentry ns ['0'] = find_mount_by_id ns 0)
    ∧ (∀ table : List VfsMount,
        (∃ i, (mntfs_lookup (some table) ['0']).1 = Except.ok i)
          ↔ ∃ m ∈ table, m.mnt_id = 0)
    ∧ (∀ (ns : Option MntNamespace) (name : List Char),
        name.head? = some '0' → 1 < name.length → name.length ≤ NAME_MAX →
        (mntfs_lookup ns name).1 = Except.error Errno.ENOENT) := by
  have hA : ∀ ns : Option MntNamespace,
      find_mount_by_dentry ns ['0'] = find_mount_by_id ns 0 := by
    intro ns
    have := find_by_dentry_decChars ns 0 (by norm_num)
    simpa [decChars] using this
  refine ⟨hA, fun table => ?_, fun ns name hh hl hm => ?_⟩
  · rw [lookup_ok_iff, hA (some table)]
    exact find_by_id_ok_iff table 0
  · have hfd : find_mount_by_dentry ns name = (Except.error Errno.ENOENT, []) := by
      unfold find_mount_by_dentry
      rw [if_neg (Nat.not_lt.mpr hm), if_pos ⟨hh, hl⟩]
    simp [mntfs_lookup, hfd]

/-- Witness for C3 (amended) at a concrete input: the two-character name
01 is NotFound even on an empty table. -/
theorem lookup_zero_names_witness :
    (mntfs_lookup (some []) ['0', '1']).1 = Except.error Errno.ENOENT :=
  lookup_zero_names.2.2 (some []) ['0', '1'] rfl (by decide) (by decide)

/-- Claim C4: a name longer than NAME_MAX always yields the distinct
NameTooLong error and never NotFound, for every name content and every
table; the length check runs before any parsing. -/
theorem lookup_name_too_long :
    ∀ (ns : Option MntNamespace) (name : List Char),
      NAME_MAX < name.length →
      (mntfs_lookup ns name).1 = Except.error Errno.ENAMETOOLONG
      ∧ (mntfs_lookup ns name).1 ≠ Except.error Errno.ENOENT := by
  intro ns name h
  have hfd : find_mount_by_dentry ns name = (Except.error Errno.ENAMETOOLONG, []) := by
    unfold find_mount_by_dentry
    rw [if_pos h]
  constructor
  · simp [mntfs_lookup, hfd]
  · simp [mntfs_lookup, hfd]

/-- Witness for C4 at a concrete input: a 256-character name of digits 1
(a perfectly numeric name) on a table holding mount id 0. -/
theorem lookup_name_too_long_witness :
    (mntfs_lookup (some [⟨0, []⟩]) (List.replicate 256 '1')).1
      = Except.error Errno.ENAMETOOLONG :=
  (lookup_name_too_long (some [⟨0, []⟩]) (List.replicate 256 '1') (by decide)).1

/-- Counterexample to claim C1 as stated: enumerating a one-record table
yields one entry while performing zero reference acquisitions — the
readdir loop contains no mntget at all. -/
theorem readdir_enumerate_takes_no_handle :
    (mntfs_readdir (some [⟨7, []⟩]) 0).1.1.length = 1
    ∧ (mntfs_readdir (some [⟨7, []⟩]) 0).2 = [] :=
  ⟨rfl, rfl⟩

/-- Claim C1 (amended): find acquires exactly one reference on the
matched record, and lookup, read-link and follow all leave a balanced
reference trace on every path; directory enumeration, however, acquires
no per-record handles — its event trace is empty. -/
theorem refcount_discipline :
    (∀ (ns : Option MntNamespace) (id : Int) (m : VfsMount),
        (find_mount_by_id ns id).1 = Except.ok m →
        (find_mount_by_id ns id).2 = [Ev.mntget m.mnt_id])
    ∧ (∀ (ns : Option MntNamespace) (name : List Char),
        mntBalanced (mntfs_lookup ns name).2)
    ∧ (∀ (env : AllocEnv) (ns : Option MntNamespace) (name : List Char)
        (buflen : Nat), mntBalanced (mntfs_readlink env ns name buflen).2)
    ∧ (∀ (ns : Option MntNamespace) (name : List Char) (nd : PathPos),
        mntBalanced (mntfs_follow ns name nd).2)
    ∧ (∀ (ns : Option MntNamespace) (pos : Nat),
        (mntfs_readdir ns pos).2 = []) := by
  refine ⟨?_, ?_, ?_, ?_, ?_⟩
  · intro ns id m h
    cases ns with
    | none => exact absurd h (by simp [find_mount_by_id])
    | some table =>
      rcases hf : table.find? (fun x => decide (x.mnt_id = id)) with _ | mnt
      · exact absurd h (by simp [find_mount_by_id, hf])
      · have h1 : find_mount_by_id (some table) id
            = (Except.ok mnt, [Ev.mntget mnt.mnt_id]) := by
          simp [find_mount_by_id, hf]
        rw [h1] at h ⊢
        rw [← Except.ok.inj h]
  · intro ns name
    rcases find_by_dentry_cases ns name with ⟨e, hfd⟩ | ⟨m, hfd⟩
    · simpa [mntfs_lookup, hfd] using mntBalanced_nil
    · simpa [mntfs_lookup, hfd] using mntBalanced_get_put m.mnt_id
  · intro env ns name buflen
    rcases find_by_dentry_cases ns name with ⟨e, hfd⟩ | ⟨m, hfd⟩
    · simpa [mntfs_readlink, hfd] using mntBalanced_nil
    · simp only [mntfs_readlink, hfd]
      split_ifs <;> simpa using mntBalanced_get_put m.mnt_id
  · intro ns name nd
    rcases find_by_dentry_cases ns name with ⟨e, hfd⟩ | ⟨m, hfd⟩
    · simpa [mntfs_follow, hfd] using mntBalanced_path_put_only nd
    · simpa [mntfs_follow, hfd] using
        mntBalanced_follow_trace nd ⟨m.mnt_id, m.mnt_root⟩ m.mnt_id
  · intro ns pos
    cases ns <;> rfl

/-- Witness for C1 (amended) at a concrete input: finding mount id 7
acquires exactly the one reference on it. -/
theorem refcount_discipline_witness :
    (find_mount_by_id (some [⟨7, []⟩]) 7).2 = [Ev.mntget 7] :=
  refcount_discipline.1 (some [⟨7, []⟩]) 7 ⟨7, []⟩ rfl

/-- Claim C5 evaluated on the code: when the PATH_MAX buffer allocation
inside read-link fails, the surfaced error is ENOENT (`error` is
initialized to `-ENOENT` and never set to `-ENOMEM` before the jump to
`out_mntput`), not the allocation-failure error the spec requires; the
node-synthesis path (`mntfs_iget`) does surface ENOMEM. -/
theorem readlink_alloc_failure_surfaces_enoent :
    (mntfs_readlink ⟨false, true⟩ (some [⟨42, ['/', 'm', 'n', 't']⟩])
        (decChars 42) 4096).1 = Except.error Errno.ENOENT
    ∧ Errno.ENOENT ≠ Errno.ENOMEM
    ∧ mntfs_iget false 1 = Except.error Errno.ENOMEM :=
  ⟨rfl, by decide, rfl⟩

lemma intDecChars_7 : intDecChars 7 = ['7'] := rfl

lemma intDecChars_42 : intDecChars 42 = ['4', '2'] := rfl

lemma intDecChars_101 : intDecChars 101 = ['1', '0', '1'] := rfl

/-- Claim C6: enumeration from cursor p yields exactly one entry per
record of zero-based scan index at least p, in table order, each named
by the decimal text of its mount id, carrying the mapped node id, typed
DT_LNK; in particular the table [7, 42, 101] from position 0 yields the
entries 7, 42, 101 in order and from position 2 only entry 101. -/
theorem readdir_enumeration :
    (∀ (table : List VfsMount) (p : Nat),
        (mntfs_readdir (some table) p).1.1
          = ((List.enumFrom 0 table).filter (fun e => decide (p ≤ e.1))).map mkEntry)
    ∧ (∀ r1 r2 r3 : List Char,
        (mntfs_readdir (some [⟨7, r1⟩, ⟨42, r2⟩, ⟨101, r3⟩]) 0).1.1
          = [⟨['7'], 0, 1007, DT_LNK⟩, ⟨['4', '2'], 1, 1042, DT_LNK⟩,
             ⟨['1', '0', '1'], 2, 1101, DT_LNK⟩])
    ∧ (∀ r1 r2 r3 : List Char,
        (mntfs_readdir (some [⟨7, r1⟩, ⟨42, r2⟩, ⟨101, r3⟩]) 2).1.1
          = [⟨['1', '0', '1'], 2, 1101, DT_LNK⟩]) := by
  have hgen : ∀ (table : List VfsMount) (p : Nat),
      (mntfs_readdir (some table) p).1.1
        = ((List.enumFrom 0 table).filter (fun e => decide (p ≤ e.1))).map mkEntry := by
    intro table p
    simp only [mntfs_readdir]
    exact readdir_loop_spec table 0 p (Nat.zero_le p)
  refine ⟨hgen, fun r1 r2 r3 => ?_, fun r1 r2 r3 => ?_⟩
  · rw [hgen]
    norm_num [mkEntry, mnt_inode, intDecChars_7, intDecChars_42, intDecChars_101]
  · rw [hgen]
    norm_num [mkEntry, mnt_inode, intDecChars_7, intDecChars_42, intDecChars_101]

/-- Claim C7: reading the link of the entry named by the decimal text of
a mount id present in the scope returns exactly that mount's root path
(given a sufficient buffer and successful transient allocation). -/
theorem readlink_returns_root :
    ∀ (table : List VfsMount) (id : Nat) (mnt : VfsMount) (buflen : Nat),
      id < 2 ^ 31 →
      table.find? (fun m => decide (m.mnt_id = (id : Int))) = some mnt →
      mnt.mnt_root.length ≤ buflen →
      (mntfs_readlink ⟨true, true⟩ (some table) (decChars id) buflen).1
        = Except.ok mnt.mnt_root := by
  intro table id mnt buflen hid hfind hbuf
  have hfd : find_mount_by_dentry (some table) (decChars id)
      = (Except.ok mnt, [Ev.mntget mnt.mnt_id]) := by
    rw [find_by_dentry_decChars (some table) id hid]
    simp [find_mount_by_id, hfind]
  simp only [mntfs_readlink, hfd]
  simp [List.take_of_length_le hbuf]

/-- Witness for C7 at the spec's example: mount id 42 with root
/mnt/data. -/
theorem readlink_returns_root_witness :
    (mntfs_readlink ⟨true, true⟩
        (some [⟨42, ['/', 'm', 'n', 't', '/', 'd', 'a', 't', 'a']⟩])
        (decChars 42) 4096).1
      = Except.ok ['/', 'm', 'n', 't', '/', 'd', 'a', 't', 'a'] :=
  readlink_returns_root [⟨42, ['/', 'm', 'n', 't', '/', 'd', 'a', 't', 'a']⟩]
    42 ⟨42, ['/', 'm', 'n', 't', '/', 'd', 'a', 't', 'a']⟩ 4096
    (by norm_num) (by decide) (by decide)

/-- Claim C8: a successful follow replaces the traversal position
entirely by the target mount's root (the result does not depend on the
prior position), and the mount reference is released only after the
redirect target has been captured (the mntput is the last event, after
the path_get of the new position). -/
theorem follow_redirects :
    ∀ (ns : Option MntNamespace) (name : List Char) (nd : PathPos)
      (m : VfsMount),
      (find_mount_by_dentry ns name).1 = Except.ok m →
      (mntfs_follow ns name nd).1 = Except.ok ⟨m.mnt_id, m.mnt_root⟩
      ∧ (∀ nd2 : PathPos,
          (mntfs_follow ns name nd2).1 = (mntfs_follow ns name nd).1)
      ∧ (mntfs_follow ns name nd).2
          = [Ev.path_put nd, Ev.mntget m.mnt_id,
             Ev.path_get ⟨m.mnt_id, m.mnt_root⟩, Ev.mntput m.mnt_id] := by
  intro ns name nd m h
  rcases find_by_dentry_cases ns name with ⟨e, hfd⟩ | ⟨m2, hfd⟩
  · rw [hfd] at h
    exact absurd h (by simp)
  · have hm : m2 = m := by
      rw [hfd] at h
      exact Except.ok.inj h
    subst hm
    refine ⟨?_, fun nd2 => ?_, ?_⟩ <;> simp [mntfs_follow, hfd]

/-- Witness for C8 at a concrete input: following entry 42 lands on that
mount's root, whatever the prior position was. -/
theorem follow_redirects_witness :
    (mntfs_follow (some [⟨42, ['/', 'd']⟩]) ['4', '2'] ⟨0, ['p']⟩).1
      = Except.ok ⟨42, ['/', 'd']⟩ :=
  (follow_redirects (some [⟨42, ['/', 'd']⟩]) ['4', '2'] ⟨0, ['p']⟩
    ⟨42, ['/', 'd']⟩ rfl).1

/-- Claim C9: the dentry delete predicate the filesystem installs
returns 1 (do not cache) for every dentry, and a successfully filled
superblock carries exactly that predicate as its s_d_op. -/
theorem dentry_never_cached :
    (∀ d : Dentry, mntfs_dentry_delete d = 1)
    ∧ (∀ d : Dentry, mntfs_dentry_operations.d_delete d = 1)
    ∧ (∀ (io da : Bool) (sb : SuperBlock),
        mntfs_fill_super io da = Except.ok sb →
        ∀ d : Dentry, sb.s_d_op.d_delete d = 1) := by
  refine ⟨fun d => rfl, fun d => rfl, fun io da sb h d => ?_⟩
  cases io with
  | false => simp [mntfs_fill_super, mntfs_iget] at h
  | true =>
    cases da with
    | false => simp [mntfs_fill_super, mntfs_iget] at h
    | true =>
      have h2 : mntfs_fill_super true true
          = Except.ok ⟨1, mntfs_dentry_operations⟩ := rfl
      rw [h2] at h
      rw [← Except.ok.inj h]
      rfl

/-- Witness for C9 at a concrete input: the superblock produced by a
successful fill_super deletes (never caches) a sample dentry. -/
theorem dentry_never_cached_witness :
    (⟨1, mntfs_dentry_operations⟩ : SuperBlock).s_d_op.d_delete ⟨['x']⟩ = 1 :=
  dentry_never_cached.2.2 true true ⟨1, mntfs_dentry_operations⟩ rfl ⟨['x']⟩

/-- Claim C10: follow releases the caller's prior traversal position
before resolving the target (the path_put is the first event on every
path), so on every failing follow the prior position has already been
dropped: the whole trace of a failing follow is exactly that one
path_put. -/
theorem follow_error_drops_prior :
    ∀ (ns : Option MntNamespace) (name : List Char) (nd : PathPos),
      ((mntfs_follow ns name nd).2.head? = some (Ev.path_put nd))
      ∧ (∀ e : Errno, (mntfs_follow ns name nd).1 = Except.error e →
          (mntfs_follow ns name nd).2 = [Ev.path_put nd]) := by
  intro ns name nd
  rcases find_by_dentry_cases ns name with ⟨e2, hfd⟩ | ⟨m, hfd⟩
  · exact ⟨by simp [mntfs_follow, hfd], fun e h => by simp [mntfs_follow, hfd]⟩
  · refine ⟨by simp [mntfs_follow, hfd], fun e h => ?_⟩
    rw [show (mntfs_follow ns name nd).1 = Except.ok ⟨m.mnt_id, m.mnt_root⟩
      from by simp [mntfs_follow, hfd]] at h
    exact absurd h (by simp)

/-- Witness for C10 at a concrete input: a follow that fails because the
caller has no mount namespace has already dropped the prior position. -/
theorem follow_error_drops_prior_witness :
    (mntfs_follow none ['1'] ⟨5, ['x']⟩).2 = [Ev.path_put ⟨5, ['x']⟩] :=
  (follow_error_drops_prior none ['1'] ⟨5, ['x']⟩).2 Errno.ENOENT rfl

end Mntfs
